import Mathlib

set_option linter.unusedVariables false
set_option linter.unusedSectionVars false

/-!
Verification of the B-tree in `src/trees/mod.rs` (catdb).

The embedding is Option-valued: a Rust `Vec` indexing or `insert`/`remove`/`drain`
operation that would panic is modelled as `none`; every operation that completes
normally returns `some`.  `Vec<T>` is modelled as `List`, the `num_keys` fields of
the Rust structs are carried verbatim, and the three-way `key.cmp(&keys[i])` match
is modelled by nested `if key < k / key = k / else` branches over a linear order
(exactly the `Less / Equal / Greater` arms).
-/

namespace CatDB

/-- Source constant `BTREE_MIN_KEYS` (`= 15`). -/
def BTREE_MIN_KEYS : Nat := 15

/-- Source constant `BTREE_MAX_KEYS` (`= 31`): split if a node hits this many keys. -/
def BTREE_MAX_KEYS : Nat := 31

/-- Source constant `BTREE_MEDIAN_INDEX` (`= BTREE_MIN_KEYS`). -/
def BTREE_MEDIAN_INDEX : Nat := BTREE_MIN_KEYS

/-- The `Node<T>` enum: `Internal(InternalNode)` carries `keys`, `children` and
`num_keys`; `Leaf(LeafNode)` carries `keys` and `num_keys`.  The two struct types
are inlined into the two constructors. -/
inductive Node (α : Type) where
  | internal (keys : List α) (children : List (Node α)) (num_keys : Nat)
  | leaf (keys : List α) (num_keys : Nat)

/-- The `BTree<T>` struct: a running key count and the owned root node. -/
structure BTree (α : Type) where
  num_keys : Nat
  root : Node α

/-- The `InsertState` struct returned by the recursive insert. -/
structure InsertState where
  success : Bool
  must_split : Bool
deriving DecidableEq

/-- The `SplitResult<T>` struct: promoted median key and the new right sibling. -/
structure SplitResult (α : Type) where
  median_key : α
  right : Node α

variable {α : Type}

/-- Rust `Vec::insert(i, x)`: shifts the suffix right; panics iff `i > len`. -/
def vecInsert (v : List α) (i : Nat) (x : α) : Option (List α) :=
  if i ≤ v.length then some (v.take i ++ x :: v.drop i) else none

/-- Rust `Vec::remove(i)`: returns the removed element and the remaining vector;
panics iff `i ≥ len`. -/
def vecRemove (v : List α) (i : Nat) : Option (α × List α) :=
  match v[i]? with
  | none => none
  | some x => some (x, v.take i ++ v.drop (i + 1))

/-- Rust `Vec::drain(i..).collect()`: returns the vector kept in place and the
drained tail; panics iff `i > len`. -/
def vecDrainFrom (v : List α) (i : Nat) : Option (List α × List α) :=
  if i ≤ v.length then some (v.take i, v.drop i) else none

/-- Outcome of the shared scan loop `for i in 0..num_keys { match key.cmp(&keys[i]) }`
that appears in `find` (leaf and internal arms), `insert_at_leaf_node` and
`insert_at_internal_node`: `found` is an `Equal` hit, `descend i` means the loop
stopped with a `Less` hit at index `i` or exhausted all keys with `i = num_keys`,
and `oob` is an out-of-bounds `keys[i]` access (a panic). -/
inductive ScanResult where
  | found
  | descend (i : Nat)
  | oob
deriving DecidableEq

variable [LinearOrder α]

/-- One iteration of the scan loop at index `i`; `fuel` counts the remaining
iterations, so the loop `for i in 0..num_keys` is entered with `fuel = num_keys`
and maintains `i + fuel = num_keys`. -/
def scanGo (key : α) (ks : List α) : Nat → Nat → ScanResult
  | i, 0 => .descend i
  | i, fuel + 1 =>
    match ks[i]? with
    | none => .oob
    | some k =>
      if key < k then .descend i
      else if key = k then .found
      else scanGo key ks (i + 1) fuel

/-- The scan loop `for i in 0..num_keys { match key.cmp(&keys[i]) ... }`. -/
def scanKeys (key : α) (ks : List α) (num_keys : Nat) : ScanResult :=
  scanGo key ks 0 num_keys

/-- Embeds `split_leaf_node`: drain the keys above the median index into the new
right sibling, remove the median, and recompute both `num_keys` fields from the
actual lengths (`node.num_keys = node.keys.len()`).  The incoming `num_keys` field
is never read by the source function, so it is not a parameter. -/
def split_leaf_node (keys : List α) : Option (Node α × SplitResult α) :=
  match vecDrainFrom keys (BTREE_MEDIAN_INDEX + 1) with
  | none => none
  | some (kept, right_keys) =>
    match vecRemove kept BTREE_MEDIAN_INDEX with
    | none => none
    | some (median_key, left_keys) =>
      some (.leaf left_keys left_keys.length,
            { median_key := median_key, right := .leaf right_keys right_keys.length })

/-- Embeds `split_internal_node`: like the leaf split, and additionally drains the
children above `BTREE_MEDIAN_INDEX + 1` into the right sibling in lockstep. -/
def split_internal_node (keys : List α) (children : List (Node α)) :
    Option (Node α × SplitResult α) :=
  match vecDrainFrom keys (BTREE_MEDIAN_INDEX + 1) with
  | none => none
  | some (kept, right_keys) =>
    match vecDrainFrom children (BTREE_MEDIAN_INDEX + 1) with
    | none => none
    | some (left_children, right_children) =>
      match vecRemove kept BTREE_MEDIAN_INDEX with
      | none => none
      | some (median_key, left_keys) =>
        some (.internal left_keys left_children left_keys.length,
              { median_key := median_key,
                right := .internal right_keys right_children right_keys.length })

/-- Embeds `split_node`: dispatch on the node variant. -/
def split_node : Node α → Option (Node α × SplitResult α)
  | .leaf ks _ => split_leaf_node ks
  | .internal ks cs _ => split_internal_node ks cs

/-- Embeds `insert_at_leaf_node`.  The `Less`-arm `keys.insert(i, key)` and the
post-loop `keys.insert(num_keys, key)` are both `vecInsert keys i key` with `i`
the scan outcome (the post-loop case has `i = num_keys`, and the scan has then
already read `keys[i]` for every `i < num_keys`, so `num_keys ≤ keys.len()` and
the insert cannot panic, exactly as the Rust `insert` at `num_keys` cannot). -/
def insert_at_leaf_node (keys : List α) (num_keys : Nat) (key : α) :
    Option (Node α × InsertState) :=
  match scanKeys key keys num_keys with
  | .oob => none
  | .found => some (.leaf keys num_keys, ⟨false, false⟩)
  | .descend i =>
    match vecInsert keys i key with
    | none => none
    | some ks' =>
      some (.leaf ks' (num_keys + 1),
            ⟨true, decide (BTREE_MAX_KEYS ≤ num_keys + 1)⟩)

mutual

/-- Embeds `insert_at_node`: dispatch on the node variant. -/
def insert_at_node : Node α → α → Option (Node α × InsertState)
  | .internal ks cs n, key => insert_at_internal_node ks cs n key
  | .leaf ks n, key => insert_at_leaf_node ks n key
termination_by node _ => sizeOf node
decreasing_by
  simp only [Node.internal.sizeOf_spec]
  omega

/-- Embeds `insert_at_internal_node`.  On a `Less` hit at index `i` (or loop
exhaustion with `i = num_keys`) it recurses into `children[i]` (in-place mutation
of the child is modelled by `children.set i`); if the child reports `must_split`
it splits that child, inserts the median at key position `i` and the new right
sibling at child position `i + 1` (the post-loop `push` calls are the `i = num_keys`
instances, which cannot panic for the same reason as in the leaf), bumps
`num_keys`, and recomputes `must_split` from the new count. -/
def insert_at_internal_node (keys : List α) (children : List (Node α))
    (num_keys : Nat) (key : α) : Option (Node α × InsertState) :=
  match scanKeys key keys num_keys with
  | .oob => none
  | .found => some (.internal keys children num_keys, ⟨false, false⟩)
  | .descend i =>
    match hc : children[i]? with
    | none => none
    | some c =>
      match insert_at_node c key with
      | none => none
      | some (c', st) =>
        if st.must_split then
          match split_node c' with
          | none => none
          | some (cleft, sr) =>
            match vecInsert keys i sr.median_key,
                  vecInsert (children.set i cleft) (i + 1) sr.right with
            | some ks', some cs' =>
              some (.internal ks' cs' (num_keys + 1),
                    ⟨st.success, decide (BTREE_MAX_KEYS ≤ num_keys + 1)⟩)
            | _, _ => none
        else
          some (.internal keys (children.set i c') num_keys, st)
termination_by sizeOf children
decreasing_by
  have hm : c ∈ children := by
    have := List.getElem?_eq_some_iff.mp hc
    obtain ⟨hlt, hval⟩ := this
    exact hval ▸ List.getElem_mem hlt
  have := List.sizeOf_lt_of_mem hm
  omega

end

/-- Embeds `BTree::find`: the iterative descent with the labelled main loop is the
evident tail recursion; a `Less` hit descends into `children[i]`, loop exhaustion
descends into `children[num_keys]`, an `Equal` hit reports `true`, and a leaf
reports `false` on `Less` or exhaustion. -/
def find_at (key : α) : Node α → Option Bool
  | .leaf ks n =>
    match scanKeys key ks n with
    | .oob => none
    | .found => some true
    | .descend _ => some false
  | .internal ks cs n =>
    match scanKeys key ks n with
    | .oob => none
    | .found => some true
    | .descend i =>
      match hc : cs[i]? with
      | none => none
      | some c => find_at key c
termination_by node => sizeOf node
decreasing_by
  have hm : c ∈ cs := by
    have := List.getElem?_eq_some_iff.mp hc
    obtain ⟨hlt, hval⟩ := this
    exact hval ▸ List.getElem_mem hlt
  have := List.sizeOf_lt_of_mem hm
  simp only [Node.internal.sizeOf_spec]
  omega

/-- Embeds `BTree::new`: an empty leaf root and a zero key count. -/
def BTree.new (α : Type) : BTree α := { num_keys := 0, root := .leaf [] 0 }

/-- Embeds `BTree::find`. -/
def BTree.find (t : BTree α) (key : α) : Option Bool := find_at key t.root

/-- Embeds `BTree::insert`: run the recursive insert on the root; if it reports
`must_split`, split the old root and make a brand-new internal node with the single
promoted key and the two halves as children; finally bump the tree key count iff
the insert succeeded, and return the success flag. -/
def BTree.insert (t : BTree α) (key : α) : Option (BTree α × Bool) :=
  match insert_at_node t.root key with
  | none => none
  | some (root', st) =>
    if st.must_split then
      match split_node root' with
      | none => none
      | some (old_root, sr) =>
        some ({ num_keys := if st.success then t.num_keys + 1 else t.num_keys,
                root := .internal [sr.median_key] [old_root, sr.right] 1 },
              st.success)
    else
      some ({ num_keys := if st.success then t.num_keys + 1 else t.num_keys,
              root := root' },
            st.success)

/-- Embeds `BTree::size`. -/
def BTree.size (t : BTree α) : Nat := t.num_keys

/-! ### Specification-level functions and invariants -/

mutual

/-- In-order traversal of all keys stored in a node. -/
def toL : Node α → List α
  | .leaf ks _ => ks
  | .internal ks cs _ => inorder cs ks
termination_by node => sizeOf node
decreasing_by
  simp only [Node.internal.sizeOf_spec]
  omega

/-- In-order interleaving of a child list with the separating keys:
`children[0], keys[0], children[1], keys[1], …, children[num_keys]`. -/
def inorder : List (Node α) → List α → List α
  | [], _ => []
  | c :: cs, [] => toL c ++ inorder cs []
  | c :: cs, k :: ks => toL c ++ k :: inorder cs ks
termination_by cs _ => sizeOf cs
decreasing_by
  all_goals simp only [List.cons.sizeOf_spec]
  all_goals omega

end

mutual

/-- Structural well-formedness with key-count bound `b` on the top node: the
`num_keys` field equals the key list length, an internal node has one child more
than it has keys, the top key count is at most `b`, and all descendants have key
count at most `BTREE_MAX_KEYS - 1 = 30`. -/
def NodeOk (b : Nat) : Node α → Prop
  | .leaf ks n => n = ks.length ∧ ks.length ≤ b
  | .internal ks cs n =>
    n = ks.length ∧ cs.length = ks.length + 1 ∧ ks.length ≤ b ∧ NodesOk cs
termination_by node => sizeOf node
decreasing_by
  simp only [Node.internal.sizeOf_spec]
  omega

/-- All nodes of a child list are well-formed with key count at most 30. -/
def NodesOk : List (Node α) → Prop
  | [] => True
  | c :: cs => NodeOk (BTREE_MAX_KEYS - 1) c ∧ NodesOk cs
termination_by cs => sizeOf cs
decreasing_by
  all_goals simp only [List.cons.sizeOf_spec]
  all_goals omega

end

mutual

/-- All leaves of the node sit at depth exactly `h` (so `h` is the height and the
tree is height-balanced). -/
def BalancedAt : Nat → Node α → Prop
  | h, .leaf _ _ => h = 0
  | 0, .internal _ _ _ => False
  | h + 1, .internal _ cs _ => BalancedL h cs
termination_by _ node => sizeOf node
decreasing_by
  simp only [Node.internal.sizeOf_spec]
  omega

/-- All nodes of a child list are balanced at height `h`. -/
def BalancedL : Nat → List (Node α) → Prop
  | _, [] => True
  | h, c :: cs => BalancedAt h c ∧ BalancedL h cs
termination_by _ cs => sizeOf cs
decreasing_by
  all_goals simp only [List.cons.sizeOf_spec]
  all_goals omega

end

mutual

/-- The node together with all of its descendants. -/
def allNodes : Node α → List (Node α)
  | .leaf ks n => [.leaf ks n]
  | .internal ks cs n => .internal ks cs n :: allNodesL cs
termination_by node => sizeOf node
decreasing_by
  simp only [Node.internal.sizeOf_spec]
  omega

/-- All nodes of a child list together with their descendants. -/
def allNodesL : List (Node α) → List (Node α)
  | [] => []
  | c :: cs => allNodes c ++ allNodesL cs
termination_by cs => sizeOf cs
decreasing_by
  all_goals simp only [List.cons.sizeOf_spec]
  all_goals omega

end

/-- The key list of a node. -/
def keysOf : Node α → List α
  | .leaf ks _ => ks
  | .internal ks _ _ => ks

/-- The child list of a node (empty for a leaf). -/
def childrenOf : Node α → List (Node α)
  | .leaf _ _ => []
  | .internal _ cs _ => cs

/-- The `num_keys` field of a node. -/
def numKeysOf : Node α → Nat
  | .leaf _ n => n
  | .internal _ _ n => n

/-- Whether the node is an `Internal` node. -/
def isInternal : Node α → Bool
  | .leaf _ _ => false
  | .internal _ _ _ => true

/-- Run a sequence of inserts, propagating a panic of any of them. -/
def insertAll : BTree α → List α → Option (BTree α)
  | t, [] => some t
  | t, k :: ks =>
    match t.insert k with
    | none => none
    | some (t', _) => insertAll t' ks

/-- The tree built from `new()` by inserting the given keys in order. -/
def buildTree (ks : List α) : Option (BTree α) := insertAll (BTree.new α) ks

/-- The tree-level invariant: a structurally well-formed, height-balanced root
with a strictly sorted in-order key sequence, and a key counter equal to the
number of stored keys. -/
def TreeInv (t : BTree α) : Prop :=
  NodeOk (BTREE_MAX_KEYS - 1) t.root ∧
  List.Sorted (· < ·) (toL t.root) ∧
  (∃ h, BalancedAt h t.root) ∧
  t.num_keys = (toL t.root).length

/-- Structural version of the scan loop, recursing over the key list. -/
def scanList (key : α) : List α → ScanResult
  | [] => .descend 0
  | k :: ks =>
    if key < k then .descend 0
    else if key = k then .found
    else
      match scanList key ks with
      | .descend i => .descend (i + 1)
      | r => r

/-- Shift a `descend` index by `i`. -/
def shiftScan (i : Nat) : ScanResult → ScanResult
  | .descend j => .descend (i + j)
  | r => r

/-! ### Equation and unfolding lemmas -/

@[simp] lemma toL_leaf (ks : List α) (n : Nat) : toL (.leaf ks n) = ks := by
  rw [toL]

@[simp] lemma toL_internal (ks : List α) (cs : List (Node α)) (n : Nat) :
    toL (.internal ks cs n) = inorder cs ks := by
  rw [toL]

@[simp] lemma inorder_nil (ks : List α) : inorder ([] : List (Node α)) ks = [] := by
  rw [inorder]

@[simp] lemma inorder_cons_nil (c : Node α) (cs : List (Node α)) :
    inorder (c :: cs) ([] : List α) = toL c ++ inorder cs [] := by
  rw [inorder]

@[simp] lemma inorder_cons_cons (c : Node α) (cs : List (Node α)) (k : α) (ks : List α) :
    inorder (c :: cs) (k :: ks) = toL c ++ k :: inorder cs ks := by
  rw [inorder]

@[simp] lemma NodeOk_leaf (b : Nat) (ks : List α) (n : Nat) :
    NodeOk b (.leaf ks n) ↔ n = ks.length ∧ ks.length ≤ b := by
  rw [NodeOk]

@[simp] lemma NodeOk_internal (b : Nat) (ks : List α) (cs : List (Node α)) (n : Nat) :
    NodeOk b (.internal ks cs n) ↔
      n = ks.length ∧ cs.length = ks.length + 1 ∧ ks.length ≤ b ∧ NodesOk cs := by
  rw [NodeOk]

@[simp] lemma NodesOk_nil : NodesOk ([] : List (Node α)) := by
  rw [NodesOk]; trivial

@[simp] lemma NodesOk_cons (c : Node α) (cs : List (Node α)) :
    NodesOk (c :: cs) ↔ NodeOk (BTREE_MAX_KEYS - 1) c ∧ NodesOk cs := by
  rw [NodesOk]

lemma NodesOk_iff (cs : List (Node α)) :
    NodesOk cs ↔ ∀ c ∈ cs, NodeOk (BTREE_MAX_KEYS - 1) c := by
  induction cs with
  | nil => simp
  | cons c cs ih => simp [ih]

@[simp] lemma BalancedAt_leaf (h : Nat) (ks : List α) (n : Nat) :
    BalancedAt h (.leaf ks n) ↔ h = 0 := by
  rw [BalancedAt]

@[simp] lemma BalancedAt_zero_internal (ks : List α) (cs : List (Node α)) (n : Nat) :
    ¬ BalancedAt 0 (.internal ks cs n) := by
  rw [BalancedAt]; simp

@[simp] lemma BalancedAt_succ_internal (h : Nat) (ks : List α) (cs : List (Node α)) (n : Nat) :
    BalancedAt (h + 1) (.internal ks cs n) ↔ BalancedL h cs := by
  rw [BalancedAt]

@[simp] lemma BalancedL_nil (h : Nat) : BalancedL h ([] : List (Node α)) := by
  rw [BalancedL]; trivial

@[simp] lemma BalancedL_cons (h : Nat) (c : Node α) (cs : List (Node α)) :
    BalancedL h (c :: cs) ↔ BalancedAt h c ∧ BalancedL h cs := by
  rw [BalancedL]

lemma BalancedL_iff (h : Nat) (cs : List (Node α)) :
    BalancedL h cs ↔ ∀ c ∈ cs, BalancedAt h c := by
  induction cs with
  | nil => simp
  | cons c cs ih => simp [ih]

@[simp] lemma allNodes_leaf (ks : List α) (n : Nat) :
    allNodes (.leaf ks n) = [.leaf ks n] := by
  rw [allNodes]

@[simp] lemma allNodes_internal (ks : List α) (cs : List (Node α)) (n : Nat) :
    allNodes (.internal ks cs n) = .internal ks cs n :: allNodesL cs := by
  rw [allNodes]

@[simp] lemma allNodesL_nil : allNodesL ([] : List (Node α)) = [] := by
  rw [allNodesL]

@[simp] lemma allNodesL_cons (c : Node α) (cs : List (Node α)) :
    allNodesL (c :: cs) = allNodes c ++ allNodesL cs := by
  rw [allNodesL]

lemma NodeOk_mono {b b' : Nat} {node : Node α} (hok : NodeOk b node) (hb : b ≤ b') :
    NodeOk b' node := by
  cases node <;> simp_all <;> omega

lemma NodeOk_strengthen {b b' : Nat} {node : Node α} (hok : NodeOk b node)
    (hlen : (keysOf node).length ≤ b') : NodeOk b' node := by
  cases node <;> simp_all [keysOf]

/-! ### Characterisation of the scan loop -/

@[simp] lemma shiftScan_zero (r : ScanResult) : shiftScan 0 r = r := by
  cases r <;> simp [shiftScan]

lemma scanGo_eq (key : α) (ks : List α) :
    ∀ (fuel i : Nat), i + fuel = ks.length →
      scanGo key ks i fuel = shiftScan i (scanList key (ks.drop i)) := by
  intro fuel
  induction fuel with
  | zero =>
    intro i hi
    have hd : ks.drop i = [] := List.drop_eq_nil_of_le (by omega)
    simp [scanGo, hd, scanList, shiftScan]
  | succ fuel ih =>
    intro i hi
    have hlt : i < ks.length := by omega
    have hdrop : ks.drop i = ks[i] :: ks.drop (i + 1) := List.drop_eq_getElem_cons hlt
    have hget : ks[i]? = some ks[i] := List.getElem?_eq_some_iff.mpr ⟨hlt, rfl⟩
    rw [scanGo, hget, hdrop]
    by_cases h1 : key < ks[i]
    · simp only [scanList, if_pos h1, shiftScan, Nat.add_zero]
    · by_cases h2 : key = ks[i]
      · simp only [scanList, if_neg h1, if_pos h2, shiftScan]
      · simp only [scanList, if_neg h1, if_neg h2]
        rw [ih (i + 1) (by omega)]
        cases hres : scanList key (ks.drop (i + 1)) with
        | descend j =>
          have hj : i + (j + 1) = i + 1 + j := by omega
          simp [shiftScan, hj]
        | found => simp [shiftScan]
        | oob => simp [shiftScan]

/-- On a well-formed node (`num_keys = keys.length`) the scan loop is the
structural scan. -/
lemma scanKeys_len (key : α) (ks : List α) : scanKeys key ks ks.length = scanList key ks := by
  rw [scanKeys, scanGo_eq key ks ks.length 0 (by omega)]
  simp

lemma scanList_ne_oob (key : α) (ks : List α) : scanList key ks ≠ .oob := by
  induction ks with
  | nil => simp [scanList]
  | cons k ks ih =>
    simp only [scanList]
    split_ifs with h1 h2
    · simp
    · simp
    · cases hres : scanList key ks <;> simp_all

lemma scanList_descend_le {key : α} {ks : List α} {i : Nat}
    (h : scanList key ks = .descend i) : i ≤ ks.length := by
  induction ks generalizing i with
  | nil => simp [scanList] at h; omega
  | cons k ks ih =>
    simp only [scanList] at h
    split_ifs at h with h1 h2
    · cases h; omega
    · generalize hres : scanList key ks = r at h
      cases r with
      | descend j => cases h; have := ih hres; simp; omega
      | found => cases h
      | oob => exact absurd hres (scanList_ne_oob key ks)

lemma scanList_found_mem {key : α} {ks : List α}
    (h : scanList key ks = .found) : key ∈ ks := by
  induction ks with
  | nil => simp [scanList] at h
  | cons k ks ih =>
    simp only [scanList] at h
    split_ifs at h with h1 h2
    · exact h2 ▸ List.mem_cons_self k ks
    · generalize hres : scanList key ks = r at h
      cases r with
      | descend j => cases h
      | found => exact List.mem_cons_of_mem k (ih hres)
      | oob => exact absurd hres (scanList_ne_oob key ks)

lemma scanList_mem_found {key : α} {ks : List α}
    (hs : List.Sorted (· < ·) ks) (hm : key ∈ ks) : scanList key ks = .found := by
  induction ks with
  | nil => simp at hm
  | cons k ks ih =>
    rw [List.sorted_cons] at hs
    rcases List.mem_cons.mp hm with h | h
    · simp [scanList, h, lt_irrefl]
    · have hkk : k < key := hs.1 key h
      have h1 : ¬ key < k := not_lt_of_gt hkk
      have h2 : ¬ key = k := fun he => absurd (he ▸ hkk) (lt_irrefl key)
      simp only [scanList, if_neg h1, if_neg h2, ih hs.2 h]

lemma scanList_descend_not_mem {key : α} {ks : List α} {i : Nat}
    (hs : List.Sorted (· < ·) ks) (h : scanList key ks = .descend i) : key ∉ ks := by
  intro hm
  rw [scanList_mem_found hs hm] at h
  cases h

/-- Inserting at the index reported by the scan keeps the list strictly sorted. -/
lemma sorted_insert_of_scan {key : α} :
    ∀ {ks : List α} {i : Nat}, scanList key ks = .descend i →
      List.Sorted (· < ·) ks →
      List.Sorted (· < ·) (ks.take i ++ key :: ks.drop i) := by
  intro ks
  induction ks with
  | nil =>
    intro i h _
    simp [scanList] at h
    simp [← h]
  | cons k ks ih =>
    intro i h hs
    rw [List.sorted_cons] at hs
    simp only [scanList] at h
    split_ifs at h with h1 h2
    · cases h
      simp only [List.take_zero, List.drop_zero, List.nil_append]
      rw [List.sorted_cons]
      refine ⟨?_, List.sorted_cons.mpr hs⟩
      intro b hb
      rcases List.mem_cons.mp hb with rfl | hb
      · exact h1
      · exact lt_trans h1 (hs.1 b hb)
    · generalize hres : scanList key ks = r at h
      cases r with
      | descend j =>
        cases h
        simp only [List.take_succ_cons, List.drop_succ_cons, List.cons_append]
        rw [List.sorted_cons]
        refine ⟨?_, ih hres hs.2⟩
        intro b hb
        rcases List.mem_append.mp hb with hb | hb
        · exact hs.1 b (List.mem_of_mem_take hb)
        · rcases List.mem_cons.mp hb with rfl | hb
          · exact lt_of_le_of_ne (le_of_not_lt h1) (Ne.symm h2)
          · exact hs.1 b (List.mem_of_mem_drop hb)
      | found => cases h
      | oob => exact absurd hres (scanList_ne_oob key ks)

/-- Inserting at any index `i ≤ length` is a permutation of consing. -/
lemma insert_perm_cons (key : α) (ks : List α) (i : Nat) :
    (ks.take i ++ key :: ks.drop i).Perm (key :: ks) := by
  calc (ks.take i ++ key :: ks.drop i).Perm (key :: (ks.take i ++ ks.drop i)) :=
        List.perm_middle
    _ = key :: ks := by rw [List.take_append_drop]

/-! ### Structure of the in-order traversal -/

lemma keys_sublist_inorder :
    ∀ (ks : List α) (cs : List (Node α)), cs.length = ks.length + 1 →
      ks.Sublist (inorder cs ks) := by
  intro ks
  induction ks with
  | nil => intro cs _; simp
  | cons k ks ih =>
    intro cs hlen
    cases cs with
    | nil => simp at hlen
    | cons c cs =>
      rw [inorder_cons_cons]
      refine List.Sublist.trans ?_ (List.sublist_append_right (toL c) _)
      exact List.Sublist.cons₂ k (ih cs (by simpa using hlen))

lemma toL_child_sublist {c : Node α} :
    ∀ {cs : List (Node α)} (ks : List α), c ∈ cs → (toL c).Sublist (inorder cs ks) := by
  intro cs
  induction cs with
  | nil => intro ks h; simp at h
  | cons c0 cs ih =>
    intro ks h
    rcases List.mem_cons.mp h with rfl | h
    · cases ks with
      | nil => rw [inorder_cons_nil]; exact List.sublist_append_left _ _
      | cons k ks => rw [inorder_cons_cons]; exact List.sublist_append_left _ _
    · cases ks with
      | nil =>
        rw [inorder_cons_nil]
        exact List.Sublist.trans (ih [] h) (List.sublist_append_right _ _)
      | cons k ks =>
        rw [inorder_cons_cons]
        refine List.Sublist.trans (ih ks h) ?_
        exact List.Sublist.trans (List.sublist_cons_self k _) (List.sublist_append_right _ _)

lemma mem_keys_inorder {k : α} {ks : List α} {cs : List (Node α)}
    (hlen : cs.length = ks.length + 1) (hm : k ∈ ks) : k ∈ inorder cs ks :=
  (keys_sublist_inorder ks cs hlen).subset hm

/-- Splitting the in-order traversal at separator key `m`. -/
lemma inorder_take_drop :
    ∀ (m : Nat) (ks : List α) (cs : List (Node α)) (km : α),
      cs.length = ks.length + 1 → ks[m]? = some km →
      inorder cs ks =
        inorder (cs.take (m + 1)) (ks.take m) ++
          km :: inorder (cs.drop (m + 1)) (ks.drop (m + 1)) := by
  intro m
  induction m with
  | zero =>
    intro ks cs km hlen hget
    cases ks with
    | nil => simp at hget
    | cons k ks =>
      cases cs with
      | nil => simp at hlen
      | cons c cs =>
        simp only [List.getElem?_cons_zero, Option.some.injEq] at hget
        subst hget
        simp [inorder_cons_cons, inorder_cons_nil]
  | succ m ih =>
    intro ks cs km hlen hget
    cases ks with
    | nil => simp at hget
    | cons k ks =>
      cases cs with
      | nil => simp at hlen
      | cons c cs =>
        simp only [List.getElem?_cons_succ] at hget
        rw [inorder_cons_cons, List.take_succ_cons, List.take_succ_cons,
          List.drop_succ_cons, List.drop_succ_cons,
          ih ks cs km (by simpa using hlen) hget, inorder_cons_cons]
        simp

/-- Replacing child `i` by the two halves of its split (with the median key put
between them) leaves the in-order traversal unchanged. -/
lemma inorder_splice {l r : Node α} {m : α} :
    ∀ (i : Nat) (cs : List (Node α)) (ks : List α) (c : Node α),
      cs[i]? = some c → i ≤ ks.length →
      toL l ++ m :: toL r = toL c →
      inorder ((cs.set i l).take (i + 1) ++ r :: (cs.set i l).drop (i + 1))
          (ks.take i ++ m :: ks.drop i) =
        inorder cs ks := by
  intro i
  induction i with
  | zero =>
    intro cs ks c hget _ htoL
    cases cs with
    | nil => simp at hget
    | cons c0 cs =>
      simp only [List.getElem?_cons_zero, Option.some.injEq] at hget
      subst hget
      cases ks with
      | nil =>
        simp only [List.set_cons_zero, List.take_succ_cons, List.take_zero,
          List.take_nil, List.drop_succ_cons, List.drop_zero, List.drop_nil,
          List.nil_append, List.cons_append]
        rw [inorder_cons_nil, inorder_cons_cons, inorder_cons_nil, ← htoL]
        simp
      | cons k ks =>
        simp only [List.set_cons_zero, List.take_succ_cons, List.take_zero,
          List.drop_succ_cons, List.drop_zero, List.nil_append, List.cons_append]
        rw [inorder_cons_cons, inorder_cons_cons, inorder_cons_cons, ← htoL]
        simp
  | succ i ih =>
    intro cs ks c hget hle htoL
    cases cs with
    | nil => simp at hget
    | cons c0 cs =>
      cases ks with
      | nil => simp at hle
      | cons k ks =>
        simp only [List.getElem?_cons_succ] at hget
        rw [List.set_cons_succ, List.take_succ_cons, List.drop_succ_cons,
          List.take_succ_cons, List.drop_succ_cons, List.cons_append, List.cons_append,
          inorder_cons_cons, inorder_cons_cons,
          ih cs ks c hget (by simpa using hle) htoL]

lemma scanList_cons_descend_zero {key k : α} {ks : List α}
    (h : scanList key (k :: ks) = .descend 0) : key < k := by
  simp only [scanList] at h
  split_ifs at h with h1 h2
  · exact h1
  · generalize hres : scanList key ks = r at h
    cases r with
    | descend j => cases h
    | found => cases h
    | oob => cases h

lemma scanList_cons_descend_succ {key k : α} {ks : List α} {i : Nat}
    (h : scanList key (k :: ks) = .descend (i + 1)) :
    ¬ key < k ∧ key ≠ k ∧ scanList key ks = .descend i := by
  simp only [scanList] at h
  split_ifs at h with h1 h2
  · cases h
  · refine ⟨h1, h2, ?_⟩
    generalize hres : scanList key ks = r at h ⊢
    cases r with
    | descend j =>
      injection h with hj
      have hji : j = i := by omega
      subst hji
      rfl
    | found => cases h
    | oob => cases h

/-- Inserting `key` into the child picked by the scan keeps the in-order traversal
sorted, and extends it by exactly `key` up to permutation. -/
lemma inorder_set_sorted {key : α} :
    ∀ (i : Nat) (cs : List (Node α)) (ks : List α) (c c' : Node α),
      cs[i]? = some c → cs.length = ks.length + 1 →
      scanList key ks = .descend i →
      List.Sorted (· < ·) (inorder cs ks) →
      List.Sorted (· < ·) (toL c') →
      (toL c').Perm (key :: toL c) →
      List.Sorted (· < ·) (inorder (cs.set i c') ks) ∧
        (inorder (cs.set i c') ks).Perm (key :: inorder cs ks) := by
  intro i
  induction i with
  | zero =>
    intro cs ks c c' hget hlen hscan hsort hsort' hperm
    cases cs with
    | nil => simp at hget
    | cons c0 cs =>
      simp only [List.getElem?_cons_zero, Option.some.injEq] at hget
      subst hget
      cases ks with
      | nil =>
        have hcs : cs = [] := by simpa using hlen
        subst hcs
        rw [List.set_cons_zero, inorder_cons_nil, inorder_cons_nil, inorder_nil,
          List.append_nil, List.append_nil]
        exact ⟨hsort', hperm⟩
      | cons k ks =>
        have hkey : key < k := scanList_cons_descend_zero hscan
        rw [inorder_cons_cons] at hsort
        obtain ⟨hs1, hs2, hcross⟩ := List.pairwise_append.mp hsort
        rw [List.set_cons_zero, inorder_cons_cons, inorder_cons_cons]
        constructor
        · refine List.pairwise_append.mpr ⟨hsort', hs2, ?_⟩
          intro a ha b hb
          rcases List.mem_cons.mp (hperm.mem_iff.mp ha) with rfl | ha'
          · rcases List.mem_cons.mp hb with rfl | hb'
            · exact hkey
            · exact lt_trans hkey ((List.sorted_cons.mp hs2).1 b hb')
          · exact hcross a ha' b hb
        · simpa using hperm.append_right (k :: inorder cs ks)
  | succ i ih =>
    intro cs ks c c' hget hlen hscan hsort hsort' hperm
    cases cs with
    | nil => simp at hget
    | cons c0 cs =>
      cases ks with
      | nil => simp [scanList] at hscan
      | cons k ks =>
        simp only [List.getElem?_cons_succ] at hget
        obtain ⟨h1, h2, hres⟩ := scanList_cons_descend_succ hscan
        have hk : k < key := lt_of_le_of_ne (le_of_not_lt h1) (fun he => h2 he.symm)
        rw [inorder_cons_cons] at hsort
        obtain ⟨hs1, hs2, hcross⟩ := List.pairwise_append.mp hsort
        obtain ⟨hk_lt, hs2'⟩ := List.pairwise_cons.mp hs2
        obtain ⟨ihs, ihp⟩ := ih cs ks c c' hget (by simpa using hlen) hres hs2' hsort' hperm
        rw [List.set_cons_succ, inorder_cons_cons]
        constructor
        · refine List.pairwise_append.mpr ⟨hs1, ?_, ?_⟩
          · refine List.pairwise_cons.mpr ⟨?_, ihs⟩
            intro b hb
            rcases List.mem_cons.mp (ihp.mem_iff.mp hb) with rfl | hb'
            · exact hk
            · exact hk_lt b hb'
          · intro a ha b hb
            rcases List.mem_cons.mp hb with rfl | hb'
            · exact hcross a ha b (List.mem_cons_self _ _)
            · rcases List.mem_cons.mp (ihp.mem_iff.mp hb') with rfl | hb''
              · exact lt_trans (hcross a ha k (List.mem_cons_self _ _)) hk
              · exact hcross a ha b (List.mem_cons_of_mem k hb'')
        · rw [inorder_cons_cons]
          have p1 : (k :: inorder (cs.set i c') ks).Perm (key :: k :: inorder cs ks) :=
            (ihp.cons k).trans (List.Perm.swap key k _)
          have p2 : (toL c0 ++ k :: inorder (cs.set i c') ks).Perm
              (toL c0 ++ key :: k :: inorder cs ks) := p1.append_left _
          exact p2.trans List.perm_middle

/-- The key looked for lies in the in-order traversal iff it lies in the child
picked by the scan. -/
lemma inorder_mem_localize {key : α} :
    ∀ (i : Nat) (cs : List (Node α)) (ks : List α) (c : Node α),
      cs[i]? = some c → cs.length = ks.length + 1 →
      scanList key ks = .descend i →
      List.Sorted (· < ·) (inorder cs ks) →
      (key ∈ inorder cs ks ↔ key ∈ toL c) := by
  intro i
  induction i with
  | zero =>
    intro cs ks c hget hlen hscan hsort
    cases cs with
    | nil => simp at hget
    | cons c0 cs =>
      simp only [List.getElem?_cons_zero, Option.some.injEq] at hget
      subst hget
      cases ks with
      | nil =>
        have hcs : cs = [] := by simpa using hlen
        subst hcs
        rw [inorder_cons_nil, inorder_nil, List.append_nil]
      | cons k ks =>
        have hkey : key < k := scanList_cons_descend_zero hscan
        rw [inorder_cons_cons] at hsort
        obtain ⟨hs1, hs2, hcross⟩ := List.pairwise_append.mp hsort
        rw [inorder_cons_cons, List.mem_append]
        constructor
        · rintro (h | h)
          · exact h
          · rcases List.mem_cons.mp h with rfl | h'
            · exact absurd hkey (lt_irrefl key)
            · exact absurd (lt_trans hkey ((List.sorted_cons.mp hs2).1 key h'))
                (lt_irrefl key)
        · exact fun h => Or.inl h
  | succ i ih =>
    intro cs ks c hget hlen hscan hsort
    cases cs with
    | nil => simp at hget
    | cons c0 cs =>
      cases ks with
      | nil => simp [scanList] at hscan
      | cons k ks =>
        simp only [List.getElem?_cons_succ] at hget
        obtain ⟨h1, h2, hres⟩ := scanList_cons_descend_succ hscan
        have hk : k < key := lt_of_le_of_ne (le_of_not_lt h1) (fun he => h2 he.symm)
        rw [inorder_cons_cons] at hsort
        obtain ⟨hs1, hs2, hcross⟩ := List.pairwise_append.mp hsort
        obtain ⟨hk_lt, hs2'⟩ := List.pairwise_cons.mp hs2
        rw [inorder_cons_cons, List.mem_append, List.mem_cons]
        rw [← ih cs ks c hget (by simpa using hlen) hres hs2']
        constructor
        · rintro (h | rfl | h)
          · exact absurd (hcross key h k (List.mem_cons_self _ _)) (asymm hk)
          · exact absurd hk (lt_irrefl key)
          · exact h
        · exact fun h => Or.inr (Or.inr h)

/-! ### Correctness of splitting -/

/-- Splitting a full node (31 keys) yields two nodes of 15 keys whose in-order
traversals, with the promoted median between them, reassemble the original
traversal; structure, balance and height are preserved on both halves. -/
lemma split_node_ok {h : Nat} {node : Node α}
    (hb : BalancedAt h node) (hok : NodeOk BTREE_MAX_KEYS node)
    (hfull : (keysOf node).length = BTREE_MAX_KEYS) :
    ∃ left sr, split_node node = some (left, sr) ∧
      toL left ++ sr.median_key :: toL sr.right = toL node ∧
      NodeOk (BTREE_MAX_KEYS - 1) left ∧ NodeOk (BTREE_MAX_KEYS - 1) sr.right ∧
      numKeysOf left = BTREE_MIN_KEYS ∧ numKeysOf sr.right = BTREE_MIN_KEYS ∧
      BalancedAt h left ∧ BalancedAt h sr.right := by
  cases node with
  | leaf ks n =>
    simp only [keysOf, BTREE_MAX_KEYS] at hfull
    have h15 : (15 : Nat) < ks.length := by omega
    have hgetks : ks[15]? = some ks[15] := List.getElem?_eq_some_iff.mpr ⟨h15, rfl⟩
    have hdrain : vecDrainFrom ks (BTREE_MEDIAN_INDEX + 1) =
        some (ks.take 16, ks.drop 16) := by
      simp [vecDrainFrom, BTREE_MEDIAN_INDEX, BTREE_MIN_KEYS, hfull]
    have l1 : (ks.take 16).take 15 = ks.take 15 := by
      rw [List.take_take]
      norm_num
    have l2 : (ks.take 16).drop 16 = [] :=
      List.drop_eq_nil_of_le (by simp [List.length_take])
    have hremove : vecRemove (ks.take 16) BTREE_MEDIAN_INDEX =
        some (ks[15], ks.take 15) := by
      simp [vecRemove, BTREE_MEDIAN_INDEX, BTREE_MIN_KEYS, List.getElem?_take,
        hgetks, l1, l2]
    have hlt : (ks.take 15).length = 15 := by simp [List.length_take]; omega
    have hlr : (ks.drop 16).length = 15 := by simp [List.length_drop]; omega
    refine ⟨.leaf (ks.take 15) (ks.take 15).length,
      ⟨ks[15], .leaf (ks.drop 16) (ks.drop 16).length⟩, ?_, ?_, ?_, ?_, ?_, ?_, ?_, ?_⟩
    · simp only [split_node, split_leaf_node, hdrain, hremove]
    · simp only [toL_leaf]
      have hd : ks.drop 15 = ks[15] :: ks.drop 16 := List.drop_eq_getElem_cons h15
      conv_rhs => rw [← List.take_append_drop 15 ks, hd]
    · rw [NodeOk_leaf]
      exact ⟨rfl, by rw [hlt]; decide⟩
    · rw [NodeOk_leaf]
      exact ⟨rfl, by rw [hlr]; decide⟩
    · simp only [numKeysOf, BTREE_MIN_KEYS]
      exact hlt
    · simp only [numKeysOf, BTREE_MIN_KEYS]
      exact hlr
    · have h0 : h = 0 := by simpa using hb
      simp [h0]
    · have h0 : h = 0 := by simpa using hb
      simp [h0]
  | internal ks cs n =>
    simp only [keysOf, BTREE_MAX_KEYS] at hfull
    obtain ⟨hn, hlen, hbound, hcs⟩ := (NodeOk_internal _ _ _ _).mp hok
    have hcl : cs.length = 32 := by omega
    have h15 : (15 : Nat) < ks.length := by omega
    have hgetks : ks[15]? = some ks[15] := List.getElem?_eq_some_iff.mpr ⟨h15, rfl⟩
    have hdrain : vecDrainFrom ks (BTREE_MEDIAN_INDEX + 1) =
        some (ks.take 16, ks.drop 16) := by
      simp [vecDrainFrom, BTREE_MEDIAN_INDEX, BTREE_MIN_KEYS, hfull]
    have hdrainc : vecDrainFrom cs (BTREE_MEDIAN_INDEX + 1) =
        some (cs.take 16, cs.drop 16) := by
      simp [vecDrainFrom, BTREE_MEDIAN_INDEX, BTREE_MIN_KEYS, hcl]
    have l1 : (ks.take 16).take 15 = ks.take 15 := by
      rw [List.take_take]
      norm_num
    have l2 : (ks.take 16).drop 16 = [] :=
      List.drop_eq_nil_of_le (by simp [List.length_take])
    have hremove : vecRemove (ks.take 16) BTREE_MEDIAN_INDEX =
        some (ks[15], ks.take 15) := by
      simp [vecRemove, BTREE_MEDIAN_INDEX, BTREE_MIN_KEYS, List.getElem?_take,
        hgetks, l1, l2]
    have hlt : (ks.take 15).length = 15 := by simp [List.length_take]; omega
    have hlr : (ks.drop 16).length = 15 := by simp [List.length_drop]; omega
    have hclt : (cs.take 16).length = 16 := by simp [List.length_take]; omega
    have hclr : (cs.drop 16).length = 16 := by simp [List.length_drop]; omega
    obtain ⟨h', rfl⟩ : ∃ h', h = h' + 1 := by
      cases h with
      | zero => exact absurd hb (BalancedAt_zero_internal _ _ _)
      | succ h' => exact ⟨h', rfl⟩
    have hbl : ∀ c ∈ cs, BalancedAt h' c :=
      (BalancedL_iff h' cs).mp ((BalancedAt_succ_internal _ _ _ _).mp hb)
    have hco : ∀ c ∈ cs, NodeOk (BTREE_MAX_KEYS - 1) c := (NodesOk_iff cs).mp hcs
    refine ⟨.internal (ks.take 15) (cs.take 16) (ks.take 15).length,
      ⟨ks[15], .internal (ks.drop 16) (cs.drop 16) (ks.drop 16).length⟩,
      ?_, ?_, ?_, ?_, ?_, ?_, ?_, ?_⟩
    · simp only [split_node, split_internal_node, hdrain, hdrainc, hremove]
    · simp only [toL_internal]
      exact (inorder_take_drop 15 ks cs ks[15] (by omega) hgetks).symm
    · refine (NodeOk_internal _ _ _ _).mpr
        ⟨rfl, by rw [hclt, hlt], by rw [hlt]; decide, ?_⟩
      exact (NodesOk_iff _).mpr fun c hc => hco c (List.mem_of_mem_take hc)
    · refine (NodeOk_internal _ _ _ _).mpr
        ⟨rfl, by rw [hclr, hlr], by rw [hlr]; decide, ?_⟩
      exact (NodesOk_iff _).mpr fun c hc => hco c (List.mem_of_mem_drop hc)
    · simp only [numKeysOf, BTREE_MIN_KEYS]
      exact hlt
    · simp only [numKeysOf, BTREE_MIN_KEYS]
      exact hlr
    · refine (BalancedAt_succ_internal _ _ _ _).mpr ?_
      exact (BalancedL_iff _ _).mpr fun c hc => hbl c (List.mem_of_mem_take hc)
    · refine (BalancedAt_succ_internal _ _ _ _).mpr ?_
      exact (BalancedL_iff _ _).mpr fun c hc => hbl c (List.mem_of_mem_drop hc)

/-! ### Small helpers -/

@[simp] lemma keysOf_leaf (ks : List α) (n : Nat) : keysOf (.leaf ks n) = ks := rfl

@[simp] lemma keysOf_internal (ks : List α) (cs : List (Node α)) (n : Nat) :
    keysOf (.internal ks cs n) = ks := rfl

@[simp] lemma numKeysOf_leaf (ks : List α) (n : Nat) : numKeysOf (.leaf ks n) = n := rfl

@[simp] lemma numKeysOf_internal (ks : List α) (cs : List (Node α)) (n : Nat) :
    numKeysOf (.internal ks cs n) = n := rfl

@[simp] lemma childrenOf_leaf (ks : List α) (n : Nat) : childrenOf (.leaf ks n) = [] := rfl

@[simp] lemma childrenOf_internal (ks : List α) (cs : List (Node α)) (n : Nat) :
    childrenOf (.internal ks cs n) = cs := rfl

@[simp] lemma isInternal_leaf (ks : List α) (n : Nat) : isInternal (.leaf ks n) = false := rfl

@[simp] lemma isInternal_internal (ks : List α) (cs : List (Node α)) (n : Nat) :
    isInternal (.internal ks cs n) = true := rfl

lemma getElem?_some_mem {β : Type} {l : List β} {i : Nat} {a : β}
    (h : l[i]? = some a) : a ∈ l := by
  obtain ⟨hlt, rfl⟩ := List.getElem?_eq_some_iff.mp h
  exact List.getElem_mem hlt

lemma set_getElem?_eq {β : Type} {l : List β} {i : Nat} {a : β}
    (h : l[i]? = some a) : l.set i a = l := by
  induction l generalizing i with
  | nil => simp at h
  | cons x l ih =>
    cases i with
    | zero =>
      simp only [List.getElem?_cons_zero, Option.some.injEq] at h
      simp [h]
    | succ i =>
      simp only [List.getElem?_cons_succ] at h
      simp [List.set_cons_succ, ih h]

lemma mem_of_mem_insert_piece {β : Type} {x r : β} {l : List β} {j : Nat}
    (h : x ∈ l.take j ++ r :: l.drop j) : x = r ∨ x ∈ l := by
  rcases List.mem_append.mp h with h | h
  · exact Or.inr (List.mem_of_mem_take h)
  · rcases List.mem_cons.mp h with rfl | h
    · exact Or.inl rfl
    · exact Or.inr (List.mem_of_mem_drop h)

lemma length_insert_piece {β : Type} {l : List β} {j : Nat} (hj : j ≤ l.length) (x : β) :
    (l.take j ++ x :: l.drop j).length = l.length + 1 := by
  simp only [List.length_append, List.length_take, List.length_cons, List.length_drop]
  omega

lemma NodeOk_numKeys {b : Nat} {node : Node α} (h : NodeOk b node) :
    numKeysOf node = (keysOf node).length ∧ (keysOf node).length ≤ b := by
  cases node with
  | leaf ks n =>
    obtain ⟨h1, h2⟩ := (NodeOk_leaf _ _ _).mp h
    exact ⟨by simpa using h1, h2⟩
  | internal ks cs n =>
    obtain ⟨h1, _, h2, _⟩ := (NodeOk_internal _ _ _ _).mp h
    exact ⟨by simpa using h1, h2⟩

/-! ### Correctness of the recursive insert -/

/-- Main lemma: on a well-formed, balanced, sorted node the recursive insert never
panics; it succeeds exactly when the key is absent; a failed (duplicate) insert
leaves the node untouched and reports no split; a successful insert adds exactly
the key (in sorted position) to the in-order traversal; structure, sortedness,
balance and height are preserved (key count of the top node possibly reaching
`BTREE_MAX_KEYS`); and the reported `must_split` flag says exactly that the new
top key count reached `BTREE_MAX_KEYS`. -/
lemma insert_at_node_ok :
    ∀ (h : Nat) (node : Node α) (key : α),
      BalancedAt h node → NodeOk (BTREE_MAX_KEYS - 1) node →
      List.Sorted (· < ·) (toL node) →
      ∃ node' st, insert_at_node node key = some (node', st) ∧
        st.success = decide (key ∉ toL node) ∧
        (st.success = false → node' = node ∧ st.must_split = false) ∧
        (st.success = true → (toL node').Perm (key :: toL node)) ∧
        List.Sorted (· < ·) (toL node') ∧
        BalancedAt h node' ∧
        NodeOk BTREE_MAX_KEYS node' ∧
        st.must_split = decide (BTREE_MAX_KEYS ≤ numKeysOf node') := by
  intro h
  induction h with
  | zero =>
    intro node key hb hok hs
    cases node with
    | internal ks cs n => exact absurd hb (BalancedAt_zero_internal _ _ _)
    | leaf ks n =>
      obtain ⟨hn, hbound⟩ := (NodeOk_leaf _ _ _).mp hok
      subst hn
      have hb30 : ks.length ≤ 30 := by simpa [BTREE_MAX_KEYS] using hbound
      rw [toL_leaf] at hs
      cases hscan : scanList key ks with
      | oob => exact absurd hscan (scanList_ne_oob key ks)
      | found =>
        have hmem : key ∈ ks := scanList_found_mem hscan
        refine ⟨.leaf ks ks.length, ⟨false, false⟩, ?_, ?_, ?_, ?_, ?_, ?_, ?_, ?_⟩
        · rw [insert_at_node]
          simp only [insert_at_leaf_node, scanKeys_len, hscan]
        · simp [hmem]
        · intro _; exact ⟨rfl, rfl⟩
        · intro hcontra; cases hcontra
        · simpa using hs
        · simp
        · exact NodeOk_mono hok (by decide)
        · have hnot : ¬ BTREE_MAX_KEYS ≤ ks.length := by
            simp only [BTREE_MAX_KEYS]; omega
          simp [hnot]
      | descend i =>
        have hle : i ≤ ks.length := scanList_descend_le hscan
        have hnm : key ∉ ks := scanList_descend_not_mem hs hscan
        have hv : vecInsert ks i key = some (ks.take i ++ key :: ks.drop i) := by
          simp [vecInsert, hle]
        refine ⟨.leaf (ks.take i ++ key :: ks.drop i) (ks.length + 1),
          ⟨true, decide (BTREE_MAX_KEYS ≤ ks.length + 1)⟩, ?_, ?_, ?_, ?_, ?_, ?_, ?_, ?_⟩
        · rw [insert_at_node]
          simp only [insert_at_leaf_node, scanKeys_len, hscan, hv]
        · simp [hnm]
        · intro hcontra; cases hcontra
        · intro _; simpa using insert_perm_cons key ks i
        · simpa using sorted_insert_of_scan hscan hs
        · simp
        · rw [NodeOk_leaf]
          refine ⟨(length_insert_piece hle key).symm, ?_⟩
          rw [length_insert_piece hle key]
          simp only [BTREE_MAX_KEYS]
          omega
        · rfl
  | succ h ih =>
    intro node key hb hok hs
    cases node with
    | leaf ks n => simp at hb
    | internal ks cs n =>
      obtain ⟨hn, hlen, hbound, hcs⟩ := (NodeOk_internal _ _ _ _).mp hok
      subst hn
      have hb30 : ks.length ≤ 30 := by simpa [BTREE_MAX_KEYS] using hbound
      have hbl : BalancedL h cs := (BalancedAt_succ_internal _ _ _ _).mp hb
      rw [toL_internal] at hs
      cases hscan : scanList key ks with
      | oob => exact absurd hscan (scanList_ne_oob key ks)
      | found =>
        have hmem : key ∈ inorder cs ks := mem_keys_inorder hlen (scanList_found_mem hscan)
        refine ⟨.internal ks cs ks.length, ⟨false, false⟩, ?_, ?_, ?_, ?_, ?_, ?_, ?_, ?_⟩
        · rw [insert_at_node, insert_at_internal_node]
          simp only [scanKeys_len, hscan]
        · simp [hmem]
        · intro _; exact ⟨rfl, rfl⟩
        · intro hcontra; cases hcontra
        · simpa using hs
        · exact hb
        · exact NodeOk_mono hok (by decide)
        · have hnot : ¬ BTREE_MAX_KEYS ≤ ks.length := by
            simp only [BTREE_MAX_KEYS]; omega
          simp [hnot]
      | descend i =>
        have hle : i ≤ ks.length := scanList_descend_le hscan
        have hlt : i < cs.length := by omega
        obtain ⟨c, hget⟩ : ∃ c, cs[i]? = some c :=
          ⟨_, List.getElem?_eq_some_iff.mpr ⟨hlt, rfl⟩⟩
        have hcmem : c ∈ cs := getElem?_some_mem hget
        have hcok : NodeOk (BTREE_MAX_KEYS - 1) c := (NodesOk_iff cs).mp hcs c hcmem
        have hcbal : BalancedAt h c := (BalancedL_iff h cs).mp hbl c hcmem
        have hcsorted : List.Sorted (· < ·) (toL c) :=
          List.Pairwise.sublist (toL_child_sublist ks hcmem) hs
        obtain ⟨c', st0, hins, hsucc, hfail, hperm, hcsort', hcbal', hcok', hms⟩ :=
          ih c key hcbal hcok hcsorted
        have hmemiff : key ∈ inorder cs ks ↔ key ∈ toL c :=
          inorder_mem_localize i cs ks c hget hlen hscan hs
        by_cases hkc : key ∈ toL c
        · -- the key is already present below: the insert is a no-op
          have hsf : st0.success = false := by simp [hsucc, hkc]
          obtain ⟨hceq, hmsf⟩ := hfail hsf
          subst hceq
          have hsetc := set_getElem?_eq hget
          refine ⟨.internal ks cs ks.length, st0, ?_, ?_, ?_, ?_, ?_, ?_, ?_, ?_⟩
          · rw [insert_at_node, insert_at_internal_node]
            simp only [scanKeys_len, hscan]
            split
            · rename_i heq; rw [hget] at heq; cases heq
            · rename_i c0 heq
              rw [hget] at heq
              injection heq with heq
              subst heq
              simp [hins, hmsf, hsetc]
          · rw [hsf]
            simp [hmemiff.mpr hkc]
          · intro _; exact ⟨rfl, hmsf⟩
          · intro hcontra; rw [hsf] at hcontra; cases hcontra
          · simpa using hs
          · exact hb
          · exact NodeOk_mono hok (by decide)
          · rw [hmsf]
            have hnot : ¬ BTREE_MAX_KEYS ≤ ks.length := by
              simp only [BTREE_MAX_KEYS]; omega
            simp [hnot]
        · -- the key is new: it goes into child `i`
          have hst : st0.success = true := by simp [hsucc, hkc]
          have hpermc : (toL c').Perm (key :: toL c) := hperm hst
          obtain ⟨hsort2, hperm2⟩ :=
            inorder_set_sorted i cs ks c c' hget hlen hscan hs hcsort' hpermc
          have hnm : key ∉ inorder cs ks := fun hm => hkc (hmemiff.mp hm)
          cases hmsplit : st0.must_split with
          | false =>
            have hok30' : NodeOk (BTREE_MAX_KEYS - 1) c' := by
              refine NodeOk_strengthen hcok' ?_
              obtain ⟨he, _⟩ := NodeOk_numKeys hcok'
              rw [hmsplit] at hms
              have : ¬ BTREE_MAX_KEYS ≤ numKeysOf c' := by
                intro hcon
                simp [hcon] at hms
              omega
            refine ⟨.internal ks (cs.set i c') ks.length, st0, ?_, ?_, ?_, ?_, ?_, ?_, ?_, ?_⟩
            · rw [insert_at_node, insert_at_internal_node]
              simp only [scanKeys_len, hscan]
              split
              · rename_i heq; rw [hget] at heq; cases heq
              · rename_i c0 heq
                rw [hget] at heq
                injection heq with heq
                subst heq
                simp [hins, hmsplit]
            · rw [hst]
              simp [hnm]
            · intro hcontra; rw [hst] at hcontra; cases hcontra
            · intro _; simpa using hperm2
            · simpa using hsort2
            · rw [BalancedAt_succ_internal]
              refine (BalancedL_iff _ _).mpr fun x hx => ?_
              rcases List.mem_or_eq_of_mem_set hx with hx | rfl
              · exact (BalancedL_iff h cs).mp hbl x hx
              · exact hcbal'
            · rw [NodeOk_internal]
              refine ⟨rfl, by simpa [List.length_set] using hlen, by simp [BTREE_MAX_KEYS]; omega, ?_⟩
              refine (NodesOk_iff _).mpr fun x hx => ?_
              rcases List.mem_or_eq_of_mem_set hx with hx | rfl
              · exact (NodesOk_iff cs).mp hcs x hx
              · exact hok30'
            · rw [hmsplit]
              have hnot : ¬ BTREE_MAX_KEYS ≤ ks.length := by
                simp only [BTREE_MAX_KEYS]; omega
              simp [hnot]
          | true =>
            have hkeys31 : (keysOf c').length = BTREE_MAX_KEYS := by
              obtain ⟨he, hle31⟩ := NodeOk_numKeys hcok'
              rw [hmsplit] at hms
              have h31 : BTREE_MAX_KEYS ≤ numKeysOf c' := by
                by_contra hcon
                simp [hcon] at hms
              omega
            obtain ⟨left, sr, hsplit, htoL, hokl, hokr, hnkl, hnkr, hball, hbalr⟩ :=
              split_node_ok hcbal' hcok' hkeys31
            have hle2 : i + 1 ≤ (cs.set i left).length := by
              rw [List.length_set]; omega
            have hv1 : vecInsert ks i sr.median_key =
                some (ks.take i ++ sr.median_key :: ks.drop i) := by
              simp [vecInsert, hle]
            have hv2 : vecInsert (cs.set i left) (i + 1) sr.right =
                some ((cs.set i left).take (i + 1) ++
                  sr.right :: (cs.set i left).drop (i + 1)) := by
              simp only [vecInsert, List.length_set]
              rw [if_pos (by omega)]
            have hget' : (cs.set i c')[i]? = some c' := List.getElem?_set_self hlt
            have hsplice : inorder ((cs.set i left).take (i + 1) ++
                sr.right :: (cs.set i left).drop (i + 1))
                (ks.take i ++ sr.median_key :: ks.drop i) = inorder (cs.set i c') ks := by
              have := inorder_splice (l := left) (r := sr.right) (m := sr.median_key)
                i (cs.set i c') ks c' hget' hle htoL
              rwa [List.set_set] at this
            refine ⟨.internal (ks.take i ++ sr.median_key :: ks.drop i)
              ((cs.set i left).take (i + 1) ++ sr.right :: (cs.set i left).drop (i + 1))
              (ks.length + 1),
              ⟨st0.success, decide (BTREE_MAX_KEYS ≤ ks.length + 1)⟩, ?_, ?_, ?_, ?_, ?_, ?_, ?_, ?_⟩
            · rw [insert_at_node, insert_at_internal_node]
              simp only [scanKeys_len, hscan]
              split
              · rename_i heq; rw [hget] at heq; cases heq
              · rename_i c0 heq
                rw [hget] at heq
                injection heq with heq
                subst heq
                simp only [hins, hmsplit, hsplit, hv1, hv2, if_true]
            · rw [hst]
              simp [hnm]
            · intro hcontra; rw [hst] at hcontra; cases hcontra
            · intro _
              rw [toL_internal, toL_internal, hsplice]
              exact hperm2
            · rw [toL_internal, hsplice]
              exact hsort2
            · rw [BalancedAt_succ_internal]
              refine (BalancedL_iff _ _).mpr fun x hx => ?_
              rcases mem_of_mem_insert_piece hx with rfl | hx
              · exact hbalr
              · rcases List.mem_or_eq_of_mem_set hx with hx | rfl
                · exact (BalancedL_iff h cs).mp hbl x hx
                · exact hball
            · rw [NodeOk_internal]
              refine ⟨(length_insert_piece hle _).symm, ?_, ?_, ?_⟩
              · rw [length_insert_piece hle _,
                  length_insert_piece (by rw [List.length_set]; omega) _, List.length_set]
                omega
              · rw [length_insert_piece hle _]
                simp only [BTREE_MAX_KEYS]
                omega
              · refine (NodesOk_iff _).mpr fun x hx => ?_
                rcases mem_of_mem_insert_piece hx with rfl | hx
                · exact hokr
                · rcases List.mem_or_eq_of_mem_set hx with hx | rfl
                  · exact (NodesOk_iff cs).mp hcs x hx
                  · exact hokl
            · rfl

/-! ### Correctness of find -/

/-- On a well-formed, balanced, sorted node, `find` never panics and answers the
membership question for the in-order traversal. -/
lemma find_at_ok :
    ∀ (h : Nat) (node : Node α) (key : α),
      BalancedAt h node → NodeOk (BTREE_MAX_KEYS - 1) node →
      List.Sorted (· < ·) (toL node) →
      find_at key node = some (decide (key ∈ toL node)) := by
  intro h
  induction h with
  | zero =>
    intro node key hb hok hs
    cases node with
    | internal ks cs n => exact absurd hb (BalancedAt_zero_internal _ _ _)
    | leaf ks n =>
      obtain ⟨hn, _⟩ := (NodeOk_leaf _ _ _).mp hok
      subst hn
      rw [toL_leaf] at hs
      rw [find_at]
      cases hscan : scanList key ks with
      | oob => exact absurd hscan (scanList_ne_oob key ks)
      | found =>
        simp only [scanKeys_len, hscan]
        simp [scanList_found_mem hscan]
      | descend i =>
        simp only [scanKeys_len, hscan]
        simp [scanList_descend_not_mem hs hscan]
  | succ h ih =>
    intro node key hb hok hs
    cases node with
    | leaf ks n => simp at hb
    | internal ks cs n =>
      obtain ⟨hn, hlen, hbound, hcs⟩ := (NodeOk_internal _ _ _ _).mp hok
      subst hn
      have hbl : BalancedL h cs := (BalancedAt_succ_internal _ _ _ _).mp hb
      rw [toL_internal] at hs
      rw [find_at]
      cases hscan : scanList key ks with
      | oob => exact absurd hscan (scanList_ne_oob key ks)
      | found =>
        simp only [scanKeys_len, hscan]
        simp [mem_keys_inorder hlen (scanList_found_mem hscan)]
      | descend i =>
        simp only [scanKeys_len, hscan]
        have hle : i ≤ ks.length := scanList_descend_le hscan
        have hlt : i < cs.length := by omega
        obtain ⟨c, hget⟩ : ∃ c, cs[i]? = some c :=
          ⟨_, List.getElem?_eq_some_iff.mpr ⟨hlt, rfl⟩⟩
        have hcmem : c ∈ cs := getElem?_some_mem hget
        split
        · rename_i heq; rw [hget] at heq; cases heq
        · rename_i c0 heq
          rw [hget] at heq
          injection heq with heq
          subst heq
          rw [ih c key ((BalancedL_iff h cs).mp hbl c hcmem)
            ((NodesOk_iff cs).mp hcs c hcmem)
            (List.Pairwise.sublist (toL_child_sublist ks hcmem) hs)]
          have hiff := inorder_mem_localize i cs ks c hget hlen hscan hs
          simp [decide_eq_decide, hiff]

/-! ### The tree-level invariant -/

lemma inorder_pair (l r : Node α) (m : α) :
    inorder [l, r] [m] = toL l ++ m :: toL r := by
  rw [inorder_cons_cons, inorder_cons_nil, inorder_nil, List.append_nil]

lemma TreeInv_new : TreeInv (BTree.new α) := by
  refine ⟨?_, ?_, ⟨0, ?_⟩, ?_⟩ <;> simp [BTree.new, TreeInv]

/-- On an invariant-satisfying tree, `find` never panics and decides membership
of the stored key set. -/
lemma BTree.find_ok {t : BTree α} (hinv : TreeInv t) (key : α) :
    t.find key = some (decide (key ∈ toL t.root)) := by
  obtain ⟨hok, hs, ⟨h, hb⟩, _⟩ := hinv
  exact find_at_ok h t.root key hb hok hs

/-- On an invariant-satisfying tree, `insert` never panics, returns `true` exactly
when the key was absent, preserves the invariant, leaves the tree untouched on a
duplicate, and otherwise adds exactly the new key. -/
lemma BTree.insert_ok {t : BTree α} (hinv : TreeInv t) (key : α) :
    ∃ t', t.insert key = some (t', decide (key ∉ toL t.root)) ∧ TreeInv t' ∧
      (key ∉ toL t.root → (toL t'.root).Perm (key :: toL t.root)) ∧
      (key ∈ toL t.root → t' = t) := by
  obtain ⟨hok, hs, ⟨h, hb⟩, hcount⟩ := hinv
  obtain ⟨node', st, hins, hsucc, hfail, hperm, hsort', hbal', hok', hms⟩ :=
    insert_at_node_ok h t.root key hb hok hs
  cases hmsplit : st.must_split with
  | false =>
    refine ⟨{ num_keys := if st.success then t.num_keys + 1 else t.num_keys,
              root := node' }, ?_, ?_, ?_, ?_⟩
    · rw [BTree.insert]
      simp only [hins, hmsplit, Bool.false_eq_true, if_false, hsucc]
    · refine ⟨?_, hsort', ⟨h, hbal'⟩, ?_⟩
      · refine NodeOk_strengthen hok' ?_
        show (keysOf node').length ≤ BTREE_MAX_KEYS - 1
        obtain ⟨he, _⟩ := NodeOk_numKeys hok'
        rw [hmsplit] at hms
        have : ¬ BTREE_MAX_KEYS ≤ numKeysOf node' := by
          intro hcon
          simp [hcon] at hms
        omega
      · by_cases hk : key ∈ toL t.root
        · have hsf : st.success = false := by simp [hsucc, hk]
          obtain ⟨hne, _⟩ := hfail hsf
          simp [hsf, hne, hcount]
        · have hst : st.success = true := by simp [hsucc, hk]
          have := (hperm hst).length_eq
          simp only [List.length_cons] at this
          simp [hst, this, hcount]
    · intro hk
      have hst : st.success = true := by simp [hsucc, hk]
      exact hperm hst
    · intro hk
      have hsf : st.success = false := by simp [hsucc, hk]
      obtain ⟨hne, _⟩ := hfail hsf
      simp only [hsf, if_false, Bool.false_eq_true, hne]
  | true =>
    have hst : st.success = true := by
      cases hsu : st.success with
      | false => obtain ⟨_, hcon⟩ := hfail hsu; rw [hcon] at hmsplit; cases hmsplit
      | true => rfl
    have hkeys31 : (keysOf node').length = BTREE_MAX_KEYS := by
      obtain ⟨he, hle31⟩ := NodeOk_numKeys hok'
      rw [hmsplit] at hms
      have h31 : BTREE_MAX_KEYS ≤ numKeysOf node' := by
        by_contra hcon
        simp [hcon] at hms
      omega
    obtain ⟨left, sr, hsplit, htoL, hokl, hokr, hnkl, hnkr, hball, hbalr⟩ :=
      split_node_ok hbal' hok' hkeys31
    have hk : key ∉ toL t.root := by
      by_contra hcon
      have : st.success = false := by simp [hsucc, hcon]
      rw [hst] at this
      cases this
    refine ⟨{ num_keys := if st.success then t.num_keys + 1 else t.num_keys,
              root := .internal [sr.median_key] [left, sr.right] 1 }, ?_, ?_, ?_, ?_⟩
    · rw [BTree.insert]
      simp only [hins, hmsplit, if_true, hsplit, hsucc]
    · refine ⟨?_, ?_, ⟨h + 1, ?_⟩, ?_⟩
      · rw [NodeOk_internal]
        refine ⟨by simp, by simp, by simp [BTREE_MAX_KEYS], ?_⟩
        rw [NodesOk_iff]
        intro x hx
        rcases List.mem_cons.mp hx with rfl | hx
        · exact hokl
        · rcases List.mem_cons.mp hx with rfl | hx
          · exact hokr
          · simp at hx
      · rw [toL_internal, inorder_pair, htoL]
        exact hsort'
      · rw [BalancedAt_succ_internal, BalancedL_iff]
        intro x hx
        rcases List.mem_cons.mp hx with rfl | hx
        · exact hball
        · rcases List.mem_cons.mp hx with rfl | hx
          · exact hbalr
          · simp at hx
      · rw [toL_internal, inorder_pair, htoL]
        have := (hperm hst).length_eq
        simp only [List.length_cons] at this
        simp [hst, this, hcount]
    · intro _
      rw [toL_internal, inorder_pair, htoL]
      exact hperm hst
    · intro hcon
      exact absurd hcon hk

/-! ### Reachable trees -/

lemma insertAll_ok :
    ∀ (ks : List α) (t : BTree α), TreeInv t →
      ∃ t', insertAll t ks = some t' ∧ TreeInv t' ∧
        (∀ x, x ∈ toL t'.root ↔ x ∈ toL t.root ∨ x ∈ ks) := by
  intro ks
  induction ks with
  | nil =>
    intro t h
    exact ⟨t, rfl, h, by simp⟩
  | cons k ks ihl =>
    intro t h
    obtain ⟨t1, hins, hinv1, hpm, hid⟩ := BTree.insert_ok h k
    have hstep : ∀ x, x ∈ toL t1.root ↔ x ∈ toL t.root ∨ x = k := by
      intro x
      by_cases hk : k ∈ toL t.root
      · rw [hid hk]
        constructor
        · exact fun hx => Or.inl hx
        · rintro (hx | rfl)
          · exact hx
          · exact hk
      · rw [(hpm hk).mem_iff, List.mem_cons]
        tauto
    obtain ⟨t', hall, hinv', hmem⟩ := ihl t1 hinv1
    refine ⟨t', ?_, hinv', ?_⟩
    · rw [insertAll]
      simp only [hins]
      exact hall
    · intro x
      rw [hmem x, hstep x, List.mem_cons]
      tauto

/-- Every insert sequence from `new()` runs without panicking and produces an
invariant-satisfying tree storing exactly the inserted keys. -/
lemma buildTree_ok (ks : List α) :
    ∃ t, buildTree ks = some t ∧ TreeInv t ∧ (∀ x, x ∈ toL t.root ↔ x ∈ ks) := by
  obtain ⟨t, hall, hinv, hmem⟩ := insertAll_ok ks (BTree.new α) TreeInv_new
  refine ⟨t, hall, hinv, fun x => ?_⟩
  rw [hmem x]
  simp [BTree.new]

/-! ### Facts about all nodes of a reachable tree -/

lemma mem_allNodesL {nd : Node α} :
    ∀ {cs : List (Node α)}, nd ∈ allNodesL cs ↔ ∃ c ∈ cs, nd ∈ allNodes c := by
  intro cs
  induction cs with
  | nil => simp
  | cons c cs ih =>
    rw [allNodesL_cons, List.mem_append, ih]
    constructor
    · rintro (h | ⟨c', hc', h⟩)
      · exact ⟨c, List.mem_cons_self _ _, h⟩
      · exact ⟨c', List.mem_cons_of_mem c hc', h⟩
    · rintro ⟨c', hc', h⟩
      rcases List.mem_cons.mp hc' with rfl | hc'
      · exact Or.inl h
      · exact Or.inr ⟨c', hc', h⟩

lemma allNodes_NodeOk :
    ∀ (h : Nat) (node : Node α), BalancedAt h node →
      NodeOk (BTREE_MAX_KEYS - 1) node →
      ∀ nd ∈ allNodes node, NodeOk (BTREE_MAX_KEYS - 1) nd := by
  intro h
  induction h with
  | zero =>
    intro node hb hok nd hnd
    cases node with
    | internal ks cs n => exact absurd hb (BalancedAt_zero_internal _ _ _)
    | leaf ks n =>
      rw [allNodes_leaf] at hnd
      rcases List.mem_cons.mp hnd with rfl | hnd
      · exact hok
      · simp at hnd
  | succ h ih =>
    intro node hb hok nd hnd
    cases node with
    | leaf ks n => simp at hb
    | internal ks cs n =>
      rw [allNodes_internal] at hnd
      rcases List.mem_cons.mp hnd with rfl | hnd
      · exact hok
      · obtain ⟨c, hc, hnd⟩ := mem_allNodesL.mp hnd
        obtain ⟨_, _, _, hcs⟩ := (NodeOk_internal _ _ _ _).mp hok
        exact ih c ((BalancedL_iff h cs).mp ((BalancedAt_succ_internal _ _ _ _).mp hb) c hc)
          ((NodesOk_iff cs).mp hcs c hc) nd hnd

lemma allNodes_toL_sublist :
    ∀ (h : Nat) (node : Node α), BalancedAt h node →
      ∀ nd ∈ allNodes node, (toL nd).Sublist (toL node) := by
  intro h
  induction h with
  | zero =>
    intro node hb nd hnd
    cases node with
    | internal ks cs n => exact absurd hb (BalancedAt_zero_internal _ _ _)
    | leaf ks n =>
      rw [allNodes_leaf] at hnd
      rcases List.mem_cons.mp hnd with rfl | hnd
      · exact List.Sublist.refl _
      · simp at hnd
  | succ h ih =>
    intro node hb nd hnd
    cases node with
    | leaf ks n => simp at hb
    | internal ks cs n =>
      rw [allNodes_internal] at hnd
      rcases List.mem_cons.mp hnd with rfl | hnd
      · exact List.Sublist.refl _
      · obtain ⟨c, hc, hnd⟩ := mem_allNodesL.mp hnd
        have h1 := ih c ((BalancedL_iff h cs).mp ((BalancedAt_succ_internal _ _ _ _).mp hb) c hc)
          nd hnd
        rw [toL_internal]
        exact h1.trans (toL_child_sublist ks hc)

lemma keysOf_sublist_toL {b : Nat} {node : Node α} (hok : NodeOk b node) :
    (keysOf node).Sublist (toL node) := by
  cases node with
  | leaf ks n => simp
  | internal ks cs n =>
    obtain ⟨_, hlen, _, _⟩ := (NodeOk_internal _ _ _ _).mp hok
    rw [keysOf_internal, toL_internal]
    exact keys_sublist_inorder ks cs hlen

/-! ### The claims -/

/-- C1: for every tree built from `new()` by any sequence of `insert` calls,
`find(tree, key)` returns `true` iff the key was previously inserted (and keeps
doing so after any further inserts, since the sequence `ks` is arbitrary); on the
empty tree `find` returns `false` for every key. -/
theorem C1_find_iff_inserted (ks : List α) (k : α) :
    ∃ t, buildTree ks = some t ∧ t.find k = some (decide (k ∈ ks)) ∧
      (BTree.new α).find k = some false := by
  obtain ⟨t, hb, hinv, hmem⟩ := buildTree_ok ks
  refine ⟨t, hb, ?_, ?_⟩
  · rw [BTree.find_ok hinv k, Option.some.injEq, decide_eq_decide]
    exact hmem k
  · rw [BTree.find_ok TreeInv_new k]
    simp [BTree.new]

/-- C2: after `new()` and after each insert (finds never mutate), the in-order
traversal of the stored keys is strictly ascending with no duplicates, and within
every single node the key sequence is strictly ascending. -/
theorem C2_ordering_invariant (ks : List α) :
    ∃ t, buildTree ks = some t ∧
      List.Sorted (· < ·) (toL t.root) ∧ (toL t.root).Nodup ∧
      ∀ nd ∈ allNodes t.root, List.Sorted (· < ·) (keysOf nd) := by
  obtain ⟨t, hb, hinv, hmem⟩ := buildTree_ok ks
  obtain ⟨hok, hs, ⟨h, hbal⟩, _⟩ := hinv
  refine ⟨t, hb, hs, hs.nodup, ?_⟩
  intro nd hnd
  have h1 : NodeOk (BTREE_MAX_KEYS - 1) nd := allNodes_NodeOk h t.root hbal hok nd hnd
  have h2 := allNodes_toL_sublist h t.root hbal nd hnd
  exact List.Pairwise.sublist ((keysOf_sublist_toL h1).trans h2) hs

/-- C3: on every reachable tree, every `Internal` node has exactly
`keys.length + 1` children, every node stores at most `BTREE_MAX_KEYS - 1 = 30`
keys, and all leaves are at equal depth from the root. -/
theorem C3_structural_invariants (ks : List α) :
    ∃ t, buildTree ks = some t ∧
      (∀ nd ∈ allNodes t.root,
        (isInternal nd = true → (childrenOf nd).length = (keysOf nd).length + 1) ∧
        (keysOf nd).length ≤ BTREE_MAX_KEYS - 1) ∧
      ∃ h, BalancedAt h t.root := by
  obtain ⟨t, hb, hinv, _⟩ := buildTree_ok ks
  obtain ⟨hok, _, ⟨h, hbal⟩, _⟩ := hinv
  refine ⟨t, hb, ?_, ⟨h, hbal⟩⟩
  intro nd hnd
  have h1 : NodeOk (BTREE_MAX_KEYS - 1) nd := allNodes_NodeOk h t.root hbal hok nd hnd
  cases nd with
  | leaf ks' n =>
    obtain ⟨_, h2⟩ := (NodeOk_leaf _ _ _).mp h1
    exact ⟨by simp, by simpa using h2⟩
  | internal ks' cs' n =>
    obtain ⟨_, hl, hb2, _⟩ := (NodeOk_internal _ _ _ _).mp h1
    exact ⟨fun _ => by simpa using hl, by simpa using hb2⟩

/-- C4: splitting a node holding exactly 31 keys keeps the keys at indices
`0..14` (`take 15`, 15 keys) in the left node, promotes the key at index 15 as
the median, and moves the keys at indices `16..30` (`drop 16`, 15 keys) into a
new right sibling of the same variant; for an internal node the first 16 children
stay left and the last 16 move right, so both sides have `keys + 1` children and
at most 30 keys (no immediate re-split). -/
theorem C4_split_median (ks : List α) (cs : List (Node α)) (m : α)
    (hlen : ks.length = BTREE_MAX_KEYS) (hm : ks[15]? = some m)
    (hcs : cs.length = BTREE_MAX_KEYS + 1) :
    split_leaf_node ks =
      some (.leaf (ks.take 15) (ks.take 15).length,
            ⟨m, .leaf (ks.drop 16) (ks.drop 16).length⟩) ∧
    split_internal_node ks cs =
      some (.internal (ks.take 15) (cs.take 16) (ks.take 15).length,
            ⟨m, .internal (ks.drop 16) (cs.drop 16) (ks.drop 16).length⟩) ∧
    (ks.take 15).length = BTREE_MIN_KEYS ∧ (ks.drop 16).length = BTREE_MIN_KEYS ∧
    (cs.take 16).length = BTREE_MIN_KEYS + 1 ∧
    (cs.drop 16).length = BTREE_MIN_KEYS + 1 ∧
    BTREE_MIN_KEYS ≤ BTREE_MAX_KEYS - 1 := by
  simp only [BTREE_MAX_KEYS] at hlen hcs
  obtain ⟨h15, hm15⟩ := List.getElem?_eq_some_iff.mp hm
  subst hm15
  have hdrain : vecDrainFrom ks (BTREE_MEDIAN_INDEX + 1) =
      some (ks.take 16, ks.drop 16) := by
    simp [vecDrainFrom, BTREE_MEDIAN_INDEX, BTREE_MIN_KEYS, hlen]
  have hdrainc : vecDrainFrom cs (BTREE_MEDIAN_INDEX + 1) =
      some (cs.take 16, cs.drop 16) := by
    simp [vecDrainFrom, BTREE_MEDIAN_INDEX, BTREE_MIN_KEYS, hcs]
  have l1 : (ks.take 16).take 15 = ks.take 15 := by
    rw [List.take_take]; norm_num
  have l2 : (ks.take 16).drop 16 = [] :=
    List.drop_eq_nil_of_le (by simp [List.length_take])
  have hremove : vecRemove (ks.take 16) BTREE_MEDIAN_INDEX =
      some (ks[15], ks.take 15) := by
    simp [vecRemove, BTREE_MEDIAN_INDEX, BTREE_MIN_KEYS, List.getElem?_take, hm, l1, l2]
  refine ⟨?_, ?_, ?_, ?_, ?_, ?_, by decide⟩
  · simp only [split_leaf_node, hdrain, hremove]
  · simp only [split_internal_node, hdrain, hdrainc, hremove]
  · simp only [List.length_take, BTREE_MIN_KEYS]; omega
  · simp only [List.length_drop, BTREE_MIN_KEYS]; omega
  · simp only [List.length_take, BTREE_MIN_KEYS]; omega
  · simp only [List.length_drop, BTREE_MIN_KEYS]; omega

/-- C4 witness: a concrete full leaf/internal split at 31 keys. -/
theorem C4_split_median_witness :
    ((List.range 31).length = BTREE_MAX_KEYS ∧
      (List.range 31)[15]? = some 15 ∧
      (List.replicate 32 (Node.leaf ([] : List Nat) 0)).length = BTREE_MAX_KEYS + 1) ∧
    (split_leaf_node (List.range 31) =
      some (.leaf ((List.range 31).take 15) ((List.range 31).take 15).length,
            ⟨15, .leaf ((List.range 31).drop 16) ((List.range 31).drop 16).length⟩) ∧
    split_internal_node (List.range 31) (List.replicate 32 (Node.leaf ([] : List Nat) 0)) =
      some (.internal ((List.range 31).take 15)
              ((List.replicate 32 (Node.leaf ([] : List Nat) 0)).take 16)
              ((List.range 31).take 15).length,
            ⟨15, .internal ((List.range 31).drop 16)
              ((List.replicate 32 (Node.leaf ([] : List Nat) 0)).drop 16)
              ((List.range 31).drop 16).length⟩) ∧
    ((List.range 31).take 15).length = BTREE_MIN_KEYS ∧
    ((List.range 31).drop 16).length = BTREE_MIN_KEYS ∧
    ((List.replicate 32 (Node.leaf ([] : List Nat) 0)).take 16).length = BTREE_MIN_KEYS + 1 ∧
    ((List.replicate 32 (Node.leaf ([] : List Nat) 0)).drop 16).length = BTREE_MIN_KEYS + 1 ∧
    BTREE_MIN_KEYS ≤ BTREE_MAX_KEYS - 1) :=
  ⟨⟨by decide, by decide, by decide⟩,
    C4_split_median (List.range 31) (List.replicate 32 (Node.leaf ([] : List Nat) 0)) 15
      (by decide) (by decide) (by decide)⟩

/-- C5: after any insert sequence, `size()` equals the number of distinct keys
inserted (the number of insert calls that returned `true`); in particular after
`N` pairwise-distinct inserts, `size() = N`. -/
theorem C5_size_distinct (ks : List α) :
    ∃ t, buildTree ks = some t ∧ t.size = ks.dedup.length ∧
      (ks.Nodup → t.size = ks.length) := by
  obtain ⟨t, hb, hinv, hmem⟩ := buildTree_ok ks
  obtain ⟨hok, hs, _, hcount⟩ := hinv
  have hperm : (toL t.root).Perm ks.dedup := by
    rw [List.perm_ext_iff_of_nodup hs.nodup (List.nodup_dedup ks)]
    intro a
    rw [List.mem_dedup]
    exact hmem a
  have hsize : t.size = ks.dedup.length := by
    rw [BTree.size, hcount, hperm.length_eq]
  exact ⟨t, hb, hsize, fun hnd => by rw [hsize, List.Nodup.dedup hnd]⟩

/-- C6: inserting a fresh key twice: the first call returns `true`, the second
returns `false`, and `size()` is unchanged by the second call — the duplicate is
signaled only by the return value, not by an error (no panic: both calls return
`some`). -/
theorem C6_duplicate_insert (ks : List α) (k : α) (hk : k ∉ ks) :
    ∃ t t₁ t₂, buildTree ks = some t ∧ t.insert k = some (t₁, true) ∧
      t₁.insert k = some (t₂, false) ∧ t₂.size = t₁.size := by
  obtain ⟨t, hb, hinv, hmem⟩ := buildTree_ok ks
  have hk0 : k ∉ toL t.root := fun h => hk ((hmem k).mp h)
  obtain ⟨t₁, hins1, hinv1, hpm1, _⟩ := BTree.insert_ok hinv k
  have hk1 : k ∈ toL t₁.root := (hpm1 hk0).mem_iff.mpr (List.mem_cons_self _ _)
  obtain ⟨t₂, hins2, hinv2, _, hid2⟩ := BTree.insert_ok hinv1 k
  refine ⟨t, t₁, t₂, hb, ?_, ?_, ?_⟩
  · simpa [hk0] using hins1
  · simpa [hk1] using hins2
  · rw [hid2 hk1]

/-- C6 witness: inserting key 0 twice into the empty tree. -/
theorem C6_duplicate_insert_witness :
    (0 : Nat) ∉ ([] : List Nat) ∧
    ∃ t t₁ t₂, buildTree ([] : List Nat) = some t ∧ t.insert 0 = some (t₁, true) ∧
      t₁.insert 0 = some (t₂, false) ∧ t₂.size = t₁.size :=
  ⟨by decide, C6_duplicate_insert [] 0 (by decide)⟩

/-- C7: when the recursive insert on the root reports `must_split`, the new root
is a brand-new internal node with exactly one key (the promoted median of the old
root's split) and exactly two children (the shrunk old root, then the new right
sibling), and the height grows by exactly one; when it does not report
`must_split` the root node is just replaced by the updated node and the height is
unchanged — so the root split is the only mechanism that increases height. -/
theorem C7_root_split (ks : List α) (k : α) :
    ∃ t r1 st, buildTree ks = some t ∧ insert_at_node t.root k = some (r1, st) ∧
      (st.must_split = true →
        ∃ l sr t', split_node r1 = some (l, sr) ∧
          t.insert k = some (t', st.success) ∧
          t'.root = .internal [sr.median_key] [l, sr.right] 1 ∧
          ∀ h, BalancedAt h t.root → BalancedAt (h + 1) t'.root) ∧
      (st.must_split = false →
        ∃ t', t.insert k = some (t', st.success) ∧ t'.root = r1 ∧
          ∀ h, BalancedAt h t.root → BalancedAt h t'.root) := by
  obtain ⟨t, hb, hinv, _⟩ := buildTree_ok ks
  obtain ⟨hok, hs, ⟨h0, hb0⟩, _⟩ := hinv
  obtain ⟨r1, st, hins, hsucc, hfail, hperm, hsort', hbal', hok', hms⟩ :=
    insert_at_node_ok h0 t.root k hb0 hok hs
  refine ⟨t, r1, st, hb, hins, ?_, ?_⟩
  · intro hmsp
    have hkeys31 : (keysOf r1).length = BTREE_MAX_KEYS := by
      obtain ⟨he, hle31⟩ := NodeOk_numKeys hok'
      rw [hmsp] at hms
      have h31 : BTREE_MAX_KEYS ≤ numKeysOf r1 := by
        by_contra hcon
        simp [hcon] at hms
      omega
    obtain ⟨l, sr, hsplit, htoL, hokl, hokr, _, _, _, _⟩ :=
      split_node_ok hbal' hok' hkeys31
    refine ⟨l, sr,
      { num_keys := if st.success then t.num_keys + 1 else t.num_keys,
        root := .internal [sr.median_key] [l, sr.right] 1 }, hsplit, ?_, rfl, ?_⟩
    · rw [BTree.insert]
      simp only [hins, hmsp, if_true, hsplit]
    · intro h hbh
      obtain ⟨r2, st2, hins2, _, _, _, _, hbal2, hok2, _⟩ :=
        insert_at_node_ok h t.root k hbh hok hs
      rw [hins] at hins2
      injection hins2 with hins2
      injection hins2 with e1 e2
      subst e1
      obtain ⟨l2, sr2, hsplit2, _, _, _, _, _, hball2, hbalr2⟩ :=
        split_node_ok hbal2 hok2 hkeys31
      rw [hsplit] at hsplit2
      injection hsplit2 with hsplit2
      injection hsplit2 with f1 f2
      subst f1
      subst f2
      rw [BalancedAt_succ_internal, BalancedL_iff]
      intro x hx
      rcases List.mem_cons.mp hx with rfl | hx
      · exact hball2
      · rcases List.mem_cons.mp hx with rfl | hx
        · exact hbalr2
        · simp at hx
  · intro hmsp
    refine ⟨{ num_keys := if st.success then t.num_keys + 1 else t.num_keys,
              root := r1 }, ?_, rfl, ?_⟩
    · rw [BTree.insert]
      simp only [hins, hmsp, Bool.false_eq_true, if_false]
    · intro h hbh
      obtain ⟨r2, st2, hins2, _, _, _, _, hbal2, _, _⟩ :=
        insert_at_node_ok h t.root k hbh hok hs
      rw [hins] at hins2
      injection hins2 with hins2
      injection hins2 with e1 e2
      subst e1
      exact hbal2

/-- C8: every key stored in an internal node of a reachable tree is logically
present in the tree: `find` reports `true` for it, which justifies the equal-key
short-circuits in `find` and `insert_at_internal_node`. -/
theorem C8_internal_keys_present (ks : List α) (k : α) :
    ∃ t, buildTree ks = some t ∧
      ∀ nd, nd ∈ allNodes t.root → isInternal nd = true → k ∈ keysOf nd →
        t.find k = some true := by
  obtain ⟨t, hb, hinv, hmem⟩ := buildTree_ok ks
  obtain ⟨hok, hs, ⟨h, hbal⟩, hc⟩ := hinv
  refine ⟨t, hb, fun nd hnd _ hk => ?_⟩
  have h1 := allNodes_NodeOk h t.root hbal hok nd hnd
  have h2 := allNodes_toL_sublist h t.root hbal nd hnd
  have hkmem : k ∈ toL t.root := h2.subset ((keysOf_sublist_toL h1).subset hk)
  rw [BTree.find_ok ⟨hok, hs, ⟨h, hbal⟩, hc⟩ k]
  simp [hkmem]

/-- C9: when insert reports failure (duplicate key), the whole tree — root node
and all descendants, not just the size counter — is exactly unchanged, and the
recursive insert never reports `must_split` together with `success = false`. -/
theorem C9_duplicate_insert_is_noop (ks : List α) (k : α) :
    ∃ t r st, buildTree ks = some t ∧ insert_at_node t.root k = some (r, st) ∧
      (st.success = false →
        r = t.root ∧ st.must_split = false ∧ t.insert k = some (t, false)) := by
  obtain ⟨t, hb, hinv, _⟩ := buildTree_ok ks
  obtain ⟨hok, hs, ⟨h0, hb0⟩, _⟩ := hinv
  obtain ⟨r, st, hins, hsucc, hfail, _, _, _, _, _⟩ :=
    insert_at_node_ok h0 t.root k hb0 hok hs
  refine ⟨t, r, st, hb, hins, fun hsf => ?_⟩
  obtain ⟨hre, hmsf⟩ := hfail hsf
  refine ⟨hre, hmsf, ?_⟩
  rw [BTree.insert]
  simp only [hins, hmsf, Bool.false_eq_true, if_false, hsf, hre]

/-- C10: on every reachable tree the `num_keys` field of every node equals its
key-list length (and internal fan-out is `keys + 1`), and consequently `find` and
`insert` (including any splits the insert performs) never hit an out-of-bounds
vector access: they always return `some`, and the builder itself never panics. -/
theorem C10_no_panic (ks : List α) :
    ∃ t, buildTree ks = some t ∧
      (∀ nd ∈ allNodes t.root, numKeysOf nd = (keysOf nd).length ∧
        (isInternal nd = true → (childrenOf nd).length = (keysOf nd).length + 1)) ∧
      ∀ k : α, (∃ b, t.find k = some b) ∧ ∃ p, t.insert k = some p := by
  obtain ⟨t, hb, hinv, _⟩ := buildTree_ok ks
  obtain ⟨hok, hs, ⟨h, hbal⟩, hc⟩ := hinv
  refine ⟨t, hb, ?_, ?_⟩
  · intro nd hnd
    have h1 := allNodes_NodeOk h t.root hbal hok nd hnd
    cases nd with
    | leaf ks' n =>
      obtain ⟨e, _⟩ := (NodeOk_leaf _ _ _).mp h1
      exact ⟨by simpa using e, by simp⟩
    | internal ks' cs' n =>
      obtain ⟨e, hl, _, _⟩ := (NodeOk_internal _ _ _ _).mp h1
      exact ⟨by simpa using e, fun _ => by simpa using hl⟩
  · intro k
    refine ⟨⟨_, BTree.find_ok ⟨hok, hs, ⟨h, hbal⟩, hc⟩ k⟩, ?_⟩
    obtain ⟨t', hins, _, _, _⟩ := BTree.insert_ok ⟨hok, hs, ⟨h, hbal⟩, hc⟩ k
    exact ⟨_, hins⟩

end CatDB
